import Mathlib

/-!
Verification of the RNG repository (`src/rng.py`): a Xorshift64* scrambler,
Von Neumann whitening into a FIFO bit buffer, least-significant-bit-first
packing, and bounded sampling by rejection.

The Python class `XorshiftRNG` is embedded shallowly: the mutable object
becomes explicit state passing on a structure, Python's unbounded `while`
loops become fuel-indexed functions returning `Option` (`none` = fuel ran
out; the Python loop would still be running), and Python integers become
`Nat`/`Int` with explicit `% 2 ^ 64` where the source masks with
`0xFFFFFFFFFFFFFFFF`.
-/

namespace RNG

/-- The 64-bit wrap modulus, `0xFFFFFFFFFFFFFFFF + 1`. -/
def M64 : Nat := 2 ^ 64

/-- The Xorshift64* finishing multiplier from `_xorshift64_raw`. -/
def MAGIC : Nat := 2685821657736338717

/-- State of a `XorshiftRNG` object: the 64-bit scrambler state and the
Von Neumann whitening bit buffer (a FIFO list, front = oldest). -/
structure XorshiftRNG where
  state : Nat
  bit_buffer : List Nat
deriving DecidableEq, Repr

/-- Constructor `XorshiftRNG.__init__`: mask the seed to 64 bits
(`seed & 0xFFFFFFFFFFFFFFFF`, which for any Python integer is `seed mod 2^64`)
and replace a zero state by 1. The buffer starts empty. -/
def XorshiftRNG.init (seed : Int) : XorshiftRNG :=
  let s := (seed % (2 ^ 64 : Int)).toNat
  { state := if s = 0 then 1 else s, bit_buffer := [] }

/-- The three xorshift transformations of `_xorshift64_raw` on the state word:
`x ^= (x << 12) & MASK; x ^= x >> 25; x ^= (x << 27) & MASK`. -/
def xorshift64_step (x0 : Nat) : Nat :=
  let x1 := x0 ^^^ ((x0 <<< 12) % M64)
  let x2 := x1 ^^^ (x1 >>> 25)
  x2 ^^^ ((x2 <<< 27) % M64)

/-- Method `_xorshift64_raw`: update the state by `xorshift64_step` and
return `(x * MAGIC) & MASK` together with the new object state. -/
def xorshift64_raw (s : XorshiftRNG) : Nat × XorshiftRNG :=
  let x := xorshift64_step s.state
  ((x * MAGIC) % M64, { s with state := x })

/-- Method `_extract_bit`: `(number >> bit_pos) & 1`. -/
def extract_bit (number bit_pos : Nat) : Nat :=
  (number >>> bit_pos) &&& 1

/-- The bits appended to the buffer by one iteration of `_fill_buffer`'s
inner `for i in range(0, 64, 2)` loop over a raw word: for each pair
`(bit1, bit2) = (raw[i], raw[i+1])`, append 0 on `(0,1)`, append 1 on
`(1,0)`, and nothing otherwise. -/
def whiten_word (raw : Nat) : List Nat :=
  (List.range 32).flatMap fun k =>
    let i := 2 * k
    let bit1 := extract_bit raw i
    let bit2 := extract_bit raw (i + 1)
    if bit1 = 0 ∧ bit2 = 1 then [0]
    else if bit1 = 1 ∧ bit2 = 0 then [1]
    else []

/-- Method `_fill_buffer`: `while len(bit_buffer) < 32`, pull one raw word
and append its whitened bits. `fuel` bounds the number of words pulled;
`none` means the Python loop would still be running after `fuel` words. -/
def fill_buffer : Nat → XorshiftRNG → Option XorshiftRNG
  | 0, s => if s.bit_buffer.length < 32 then none else some s
  | fuel + 1, s =>
    if s.bit_buffer.length < 32 then
      let p := xorshift64_raw s
      fill_buffer fuel { p.2 with bit_buffer := p.2.bit_buffer ++ whiten_word p.1 }
    else some s

/-- Method `generate_raw_bit`: refill when the buffer is empty, then
`bit_buffer.pop(0)` (remove and return the front element). -/
def generate_raw_bit (fuel : Nat) (s : XorshiftRNG) : Option (Nat × XorshiftRNG) :=
  match (if s.bit_buffer.length = 0 then fill_buffer fuel s else some s) with
  | none => none
  | some s₁ =>
    match s₁.bit_buffer with
    | [] => none
    | b :: rest => some (b, { s₁ with bit_buffer := rest })

/-- The loop of `apply_whitening`: `for i in range(num_bits): result |= bit << i`,
with `n` iterations remaining, next position `i`, and accumulator `result`. -/
def apply_whitening_aux (fuel : Nat) : Nat → Nat → Nat → XorshiftRNG → Option (Nat × XorshiftRNG)
  | 0, _, result, s => some (result, s)
  | n + 1, i, result, s =>
    match generate_raw_bit fuel s with
    | none => none
    | some p => apply_whitening_aux fuel n (i + 1) (result ||| (p.1 <<< i)) p.2

/-- Method `apply_whitening`: draw `num_bits` whitened bits and pack them
least-significant-bit-first. -/
def apply_whitening (fuel num_bits : Nat) (s : XorshiftRNG) : Option (Nat × XorshiftRNG) :=
  apply_whitening_aux fuel num_bits 0 0 s

/-- Python's `int.bit_length()` for the (possibly negative) argument:
the bit length of the absolute value. `Nat.size` is exactly that measure. -/
def bit_length (m : Int) : Nat :=
  Nat.size m.natAbs

/-- The rejection loop of `get_random_number`: `while True`, draw an
`nbits`-bit packed candidate and accept it if strictly below `max_value`.
`tries` bounds the number of attempts. -/
def reject_loop (fuel : Nat) : Nat → Nat → Int → XorshiftRNG → Option (Int × XorshiftRNG)
  | 0, _, _, _ => none
  | tries + 1, nbits, max_value, s =>
    match apply_whitening fuel nbits s with
    | none => none
    | some p =>
      if (p.1 : Int) < max_value then some ((p.1 : Int), p.2)
      else reject_loop fuel tries nbits max_value p.2

/-- Method `get_random_number`: return 0 at once when `max_value <= 1`,
otherwise rejection-sample with width `max_value.bit_length()`. -/
def get_random_number (fuel tries : Nat) (max_value : Int) (s : XorshiftRNG) :
    Option (Int × XorshiftRNG) :=
  if max_value ≤ 1 then some (0, s)
  else reject_loop fuel tries (bit_length max_value) max_value s

/-- Method `get_random_bits`: `n` successive `generate_raw_bit` calls,
collected in draw order. -/
def get_random_bits (fuel : Nat) : Nat → XorshiftRNG → Option (List Nat × XorshiftRNG)
  | 0, s => some ([], s)
  | n + 1, s =>
    match generate_raw_bit fuel s with
    | none => none
    | some p =>
      match get_random_bits fuel n p.2 with
      | none => none
      | some q => some (p.1 :: q.1, q.2)

/-- Spec wording of the scrambler step (`next_raw_word`), to be compared
with the source's `xorshift64_raw`: all arithmetic wraps modulo `2^64`,
so every intermediate value is reduced. Returns `(new state, output)`. -/
def spec_next_raw_word (x0 : Nat) : Nat × Nat :=
  let x1 := (x0 ^^^ (x0 <<< 12)) % 2 ^ 64
  let x2 := (x1 ^^^ (x1 >>> 25)) % 2 ^ 64
  let x3 := (x2 ^^^ (x2 <<< 27)) % 2 ^ 64
  (x3, x3 * 2685821657736338717 % 2 ^ 64)

/-- Spec wording of the Von Neumann rule on one bit pair: `(0,1)` gives
output bit 0, `(1,0)` gives output bit 1, equal pairs give nothing. -/
def spec_pair_bits (b1 b2 : Bool) : List Nat :=
  if b1 = false ∧ b2 = true then [0]
  else if b1 = true ∧ b2 = false then [1]
  else []

/-- Spec wording of the refill scan, to be compared with the source's
`whiten_word`: the 32 non-overlapping least-significant-bit-first pairs
`(w[2k], w[2k+1])` of a word, each mapped by the Von Neumann rule. -/
def spec_whiten_scan (w : Nat) : List Nat :=
  (List.range 32).flatMap fun k => spec_pair_bits (w.testBit (2 * k)) (w.testBit (2 * k + 1))

/-- Spec wording of the packing order (`pack_bits`): the first bit drawn
occupies bit position 0 (least significant), the second bit position 1,
and so on. -/
def pack_lsb_first : List Nat → Nat
  | [] => 0
  | b :: rest => b + 2 * pack_lsb_first rest

/-- Buffer well-formedness: every queued value is a single bit. Holds at
construction (empty buffer) and is preserved by every operation. -/
def BitsInv (s : XorshiftRNG) : Prop :=
  ∀ b ∈ s.bit_buffer, b ≤ 1

/-- Scrambler-state well-formedness: the state word is non-zero and fits
in 64 bits. -/
def NZ (s : XorshiftRNG) : Prop :=
  s.state ≠ 0 ∧ s.state < 2 ^ 64

end RNG

namespace RNG

/-- The bit measure `Nat.size` (Python's `bit_length` on naturals) is one
more than the position of the highest set bit, i.e. `Nat.log2 n + 1`. -/
theorem size_eq_log2_succ {n : Nat} (h : n ≠ 0) : Nat.size n = Nat.log2 n + 1 :=
  le_antisymm (Nat.size_le.mpr Nat.lt_log2_self) (Nat.lt_size.mpr (Nat.log2_self_le h))

/-- C6: for `max > 1` the sampler uses width `bit_length max` computed from
`max` itself — the position of the highest set bit of `max`, plus one —
each rejection attempt packs exactly that many bits, and a range of 256
draws 9-bit candidates rather than the minimal 8. -/
theorem c6_width_from_max_itself (fuel tries : Nat) (m : Int) (s : XorshiftRNG) (h : 1 < m) :
    get_random_number fuel tries m s = reject_loop fuel tries (bit_length m) m s ∧
    bit_length m = Nat.log2 m.natAbs + 1 ∧
    bit_length 256 = 9 ∧ bit_length 255 = 8 ∧
    reject_loop fuel (tries + 1) (bit_length m) m s =
      (apply_whitening fuel (bit_length m) s).bind fun p =>
        if (p.1 : Int) < m then some ((p.1 : Int), p.2)
        else reject_loop fuel tries (bit_length m) m p.2 := by
  refine ⟨?_, ?_, ?_, ?_, ?_⟩
  · unfold get_random_number
    rw [if_neg (by omega)]
  · exact size_eq_log2_succ (by omega)
  · have h1 : Nat.size 256 ≤ 9 := Nat.size_le.mpr (by norm_num)
    have h2 : 8 < Nat.size 256 := Nat.lt_size.mpr (by norm_num)
    show Nat.size 256 = 9
    omega
  · have h1 : Nat.size 255 ≤ 8 := Nat.size_le.mpr (by norm_num)
    have h2 : 7 < Nat.size 255 := Nat.lt_size.mpr (by norm_num)
    show Nat.size 255 = 8
    omega
  · cases hw : apply_whitening fuel (bit_length m) s with
    | none => simp [reject_loop, hw]
    | some p => simp [reject_loop, hw]

/-- C6 witness: at `max = 256` the hypothesis `1 < 256` holds and the
sampler's width is 9. -/
theorem c6_witness :
    (1 : Int) < 256 ∧ bit_length 256 = 9 :=
  ⟨by norm_num, (c6_width_from_max_itself 0 0 256 (XorshiftRNG.init 0) (by norm_num)).2.2.1⟩

/-- C7: the degenerate ranges 0 and 1 return 0 at once and leave the whole
generator state (scrambler word and bit buffer) unchanged. -/
theorem c7_degenerate_range_noop (fuel tries : Nat) (s : XorshiftRNG) :
    get_random_number fuel tries 0 s = some (0, s) ∧
    get_random_number fuel tries 1 s = some (0, s) := by
  refine ⟨?_, ?_⟩ <;>
  · unfold get_random_number
    rw [if_pos (by norm_num)]

/-- C8: seed 0 is coerced to 1 at construction, so the two generators start
in identical states and every operation behaves identically on them. -/
theorem c8_seed_zero_eq_seed_one :
    XorshiftRNG.init 0 = XorshiftRNG.init 1 ∧
    (∀ fuel tries m, get_random_number fuel tries m (XorshiftRNG.init 0) =
      get_random_number fuel tries m (XorshiftRNG.init 1)) ∧
    (∀ fuel n, get_random_bits fuel n (XorshiftRNG.init 0) =
      get_random_bits fuel n (XorshiftRNG.init 1)) ∧
    (∀ fuel n, apply_whitening fuel n (XorshiftRNG.init 0) =
      apply_whitening fuel n (XorshiftRNG.init 1)) := by
  have h : XorshiftRNG.init 0 = XorshiftRNG.init 1 := by decide
  exact ⟨h, fun fuel tries m => by rw [h], fun fuel n => by rw [h], fun fuel n => by rw [h]⟩

/-- C9 counterexample: the byte `01101001` (= 105), read
least-significant-bit-first, decomposes into the pairs
`(1,0),(0,1),(0,1),(1,0)` — not the pairs `(1,0),(0,1),(1,1),(0,1)` the
claim lists — and whitening emits four bits `1, 0, 0, 1`, not three. -/
theorem c9_counterexample :
    whiten_word 0b01101001 = [1, 0, 0, 1] ∧
    whiten_word 0b01101001 ≠ [1, 0, 0] ∧
    extract_bit 0b01101001 4 = 0 ∧ extract_bit 0b01101001 5 = 1 := by
  decide

/-- C9 amended: the byte whose least-significant-first pairs are
`(1,0),(0,1),(1,1),(0,1)` is `10111001` (= 185), and on it the whitening
emits exactly three bits, in order `1, 0, 0`; the all-equal pair `(1,1)`
contributes no bit. -/
theorem c9_whitening_vector :
    extract_bit 0b10111001 0 = 1 ∧ extract_bit 0b10111001 1 = 0 ∧
    extract_bit 0b10111001 2 = 0 ∧ extract_bit 0b10111001 3 = 1 ∧
    extract_bit 0b10111001 4 = 1 ∧ extract_bit 0b10111001 5 = 1 ∧
    extract_bit 0b10111001 6 = 0 ∧ extract_bit 0b10111001 7 = 1 ∧
    whiten_word 0b10111001 = [1, 0, 0] := by
  decide

/-- C10: every negative bound falls into the `max_value <= 1` guard and is
treated exactly like the degenerate range: result 0, state untouched. -/
theorem c10_negative_range_noop (fuel tries : Nat) (m : Int) (s : XorshiftRNG) (h : m < 0) :
    get_random_number fuel tries m s = some (0, s) := by
  unfold get_random_number
  rw [if_pos (by omega)]

/-- C10 witness: concrete negative bound -5 on a concrete generator. -/
theorem c10_witness :
    (-5 : Int) < 0 ∧
    get_random_number 0 0 (-5) (XorshiftRNG.init 7) = some (0, XorshiftRNG.init 7) :=
  ⟨by norm_num, c10_negative_range_noop 0 0 (-5) (XorshiftRNG.init 7) (by norm_num)⟩

end RNG

namespace RNG

/-- The rejection loop only ever returns an accepted candidate: any `some`
result is nonnegative and strictly below the bound, for any fuel, any
number of attempts, and any starting generator state. -/
theorem reject_loop_mem_range (fuel : Nat) :
    ∀ tries nbits m s v s',
      reject_loop fuel tries nbits m s = some (v, s') → 0 ≤ v ∧ v < m := by
  intro tries
  induction tries with
  | zero =>
    intro nbits m s v s' h
    simp [reject_loop] at h
  | succ t ih =>
    intro nbits m s v s' h
    unfold reject_loop at h
    cases hw : apply_whitening fuel nbits s with
    | none =>
      rw [hw] at h
      exact Option.noConfusion h
    | some p =>
      rw [hw] at h
      have h' : (if (p.1 : Int) < m then some ((p.1 : Int), p.2)
          else reject_loop fuel t nbits m p.2) = some (v, s') := h
      by_cases hc : (p.1 : Int) < m
      · rw [if_pos hc] at h'
        simp only [Option.some.injEq, Prod.mk.injEq] at h'
        obtain ⟨rfl, rfl⟩ := h'
        exact ⟨Int.natCast_nonneg p.1, hc⟩
      · rw [if_neg hc] at h'
        exact ih nbits m p.2 v s' h'

/-- C1: for every `max > 1`, every value the bounded sampler returns lies
in `[0, max)`: the rejection loop accepts only packed candidates strictly
below `max`, whatever the fuel, attempt count, or generator state. -/
theorem c1_bounded_sample_in_range (fuel tries : Nat) (m v : Int) (s : XorshiftRNG)
    (hm : 1 < m) (h : (get_random_number fuel tries m s).map Prod.fst = some v) :
    0 ≤ v ∧ v < m := by
  unfold get_random_number at h
  rw [if_neg (by omega)] at h
  cases hr : reject_loop fuel tries (bit_length m) m s with
  | none => rw [hr] at h; simp at h
  | some q =>
    rw [hr] at h
    simp at h
    subst h
    exact reject_loop_mem_range fuel tries (bit_length m) m s q.1 q.2 (by rw [hr])

/-- C1 witness: with seed 42, fuel 5 and 5 attempts, sampling below 4
returns the value 2, which lies in `[0, 4)`. -/
theorem c1_witness :
    (1 : Int) < 4 ∧ (0 ≤ (2 : Int) ∧ (2 : Int) < 4) :=
  ⟨by norm_num,
    c1_bounded_sample_in_range 5 5 4 2 (XorshiftRNG.init 42) (by norm_num) (by
      have hb : bit_length 4 = 3 := by
        have h1 : Nat.size 4 ≤ 3 := Nat.size_le.mpr (by norm_num)
        have h2 : 2 < Nat.size 4 := Nat.lt_size.mpr (by norm_num)
        show Nat.size 4 = 3
        omega
      unfold get_random_number
      rw [if_neg (by norm_num), hb]
      decide)⟩

end RNG

namespace RNG

/-- Truncation to `2^n` commutes with XOR. -/
theorem xor_mod_two_pow (a b n : Nat) :
    (a ^^^ b) % 2 ^ n = a % 2 ^ n ^^^ b % 2 ^ n := by
  apply Nat.eq_of_testBit_eq
  intro i
  simp only [Nat.testBit_mod_two_pow, Nat.testBit_xor]
  cases hd : decide (i < n) <;> simp

/-- The source's mask-the-shift-then-XOR step agrees with the spec's
reduce-everything-modulo-`2^64` step on any 64-bit state. -/
theorem xorshift64_step_eq_spec {x : Nat} (h : x < 2 ^ 64) :
    xorshift64_step x = (spec_next_raw_word x).1 := by
  unfold xorshift64_step spec_next_raw_word M64
  dsimp only
  have hm : (0:Nat) < 2 ^ 64 := by positivity
  rw [xor_mod_two_pow x (x <<< 12) 64, Nat.mod_eq_of_lt h]
  set x1 := x ^^^ (x <<< 12) % 2 ^ 64 with hx1
  have b1 : x1 < 2 ^ 64 := Nat.xor_lt_two_pow h (Nat.mod_lt _ hm)
  have b1r : x1 >>> 25 < 2 ^ 64 := by
    rw [Nat.shiftRight_eq_div_pow]
    exact lt_of_le_of_lt (Nat.div_le_self _ _) b1
  rw [Nat.mod_eq_of_lt (Nat.xor_lt_two_pow b1 b1r)]
  set x2 := x1 ^^^ x1 >>> 25 with hx2
  have b2 : x2 < 2 ^ 64 := Nat.xor_lt_two_pow b1 b1r
  rw [xor_mod_two_pow x2 (x2 <<< 27) 64, Nat.mod_eq_of_lt b2]

/-- C2: `_xorshift64_raw` implements exactly the Xorshift64* step: on a
64-bit state it computes the three masked xorshift transformations, stores
the result as the new state, leaves the bit buffer alone, and returns the
state multiplied by 2685821657736338717 modulo `2^64` — exactly the spec's
`next_raw_word` with all arithmetic wrapping modulo `2^64`. -/
theorem c2_raw_word_is_xorshift64_star (s : XorshiftRNG) (h : s.state < 2 ^ 64) :
    (xorshift64_raw s).2.state = (spec_next_raw_word s.state).1 ∧
    (xorshift64_raw s).1 = (spec_next_raw_word s.state).2 ∧
    (xorshift64_raw s).2.bit_buffer = s.bit_buffer := by
  have hstep := xorshift64_step_eq_spec h
  refine ⟨hstep, ?_, rfl⟩
  show xorshift64_step s.state * MAGIC % M64 = (spec_next_raw_word s.state).2
  rw [hstep]
  rfl

/-- C2 witness: the generator seeded with 42 has a 64-bit state, and on it
the source raw-word output equals the spec's output component. -/
theorem c2_witness :
    (XorshiftRNG.init 42).state < 2 ^ 64 ∧
    (xorshift64_raw (XorshiftRNG.init 42)).1 =
      (spec_next_raw_word (XorshiftRNG.init 42).state).2 :=
  ⟨by decide, (c2_raw_word_is_xorshift64_star (XorshiftRNG.init 42) (by decide)).2.1⟩

end RNG

namespace RNG

/-- `_extract_bit` agrees with `Nat.testBit`: it returns 1 exactly on a
set bit and 0 otherwise. -/
theorem extract_bit_eq_testBit (w i : Nat) :
    extract_bit w i = if w.testBit i then 1 else 0 := by
  unfold extract_bit
  rw [Nat.and_one_is_mod, Nat.shiftRight_eq_div_pow, Nat.testBit_to_div_mod]
  rcases Nat.mod_two_eq_zero_or_one (w / 2 ^ i) with h | h <;> simp [h]

/-- The source's whitening scan of a raw word equals the spec's scan over
the 32 least-significant-bit-first pairs. -/
theorem whiten_word_eq_spec (w : Nat) : whiten_word w = spec_whiten_scan w := by
  unfold whiten_word spec_whiten_scan
  congr 1
  funext k
  simp only [extract_bit_eq_testBit, spec_pair_bits]
  cases h1 : w.testBit (2 * k) <;> cases h2 : w.testBit (2 * k + 1) <;> simp

/-- C3: while the buffer holds fewer than 32 bits the refill loop pulls one
raw word and appends exactly its Von Neumann scan — the 32 non-overlapping
LSB-first pairs in increasing order, (0,1) giving bit 0, (1,0) giving
bit 1, equal pairs giving nothing — and the loop stops as soon as the
buffer holds at least 32 bits. -/
theorem c3_fill_buffer_refill (fuel : Nat) (s : XorshiftRNG) (w : Nat)
    (h : s.bit_buffer.length < 32) :
    fill_buffer (fuel + 1) s =
      fill_buffer fuel
        { state := (xorshift64_raw s).2.state,
          bit_buffer := s.bit_buffer ++ whiten_word (xorshift64_raw s).1 } ∧
    (∀ s₂ : XorshiftRNG, ¬ s₂.bit_buffer.length < 32 → fill_buffer fuel s₂ = some s₂) ∧
    whiten_word w = spec_whiten_scan w := by
  refine ⟨?_, ?_, whiten_word_eq_spec w⟩
  · simp only [fill_buffer]
    rw [if_pos h]
    rfl
  · intro s₂ h₂
    cases fuel with
    | zero => simp only [fill_buffer]; rw [if_neg h₂]
    | succ f => simp only [fill_buffer]; rw [if_neg h₂]

/-- C3 witness: a freshly constructed generator has an empty (hence
short) buffer, and the scan of the word 7 is the single bit from its one
unequal pair. -/
theorem c3_witness :
    (XorshiftRNG.init 3).bit_buffer.length < 32 ∧ whiten_word 7 = spec_whiten_scan 7 :=
  ⟨by decide, (c3_fill_buffer_refill 0 (XorshiftRNG.init 3) 7 (by decide)).2.2⟩

end RNG

namespace RNG

/-- Bit `j` of `r + b * 2^i` when `r < 2^i`: positions below `i` read `r`,
positions at or above `i` read `b`. -/
theorem testBit_add_mul_two_pow {r : Nat} (b i : Nat) (hr : r < 2 ^ i) (j : Nat) :
    (r + b * 2 ^ i).testBit j = if j < i then r.testBit j else b.testBit (j - i) := by
  rcases lt_or_ge j i with hj | hj
  · rw [if_pos hj, Nat.testBit_to_div_mod, Nat.testBit_to_div_mod]
    have hsplit : (2 : Nat) ^ i = 2 ^ j * 2 ^ (i - j) := by
      rw [← pow_add]
      congr 1
      omega
    have hdiv : (r + b * 2 ^ i) / 2 ^ j = r / 2 ^ j + b * 2 ^ (i - j) := by
      rw [hsplit, show b * (2 ^ j * 2 ^ (i - j)) = b * 2 ^ (i - j) * 2 ^ j by ring,
        Nat.add_mul_div_right _ _ (by positivity : (0:Nat) < 2 ^ j)]
    have he : (2 : Nat) ^ (i - j) = 2 ^ (i - j - 1) * 2 := by
      rw [← pow_succ]
      congr 1
      omega
    rw [hdiv, he, show b * (2 ^ (i - j - 1) * 2) = b * 2 ^ (i - j - 1) * 2 by ring,
      Nat.add_mul_mod_self_right]
  · rw [if_neg (by omega), Nat.testBit_to_div_mod, Nat.testBit_to_div_mod]
    have hsplit : (2 : Nat) ^ j = 2 ^ i * 2 ^ (j - i) := by
      rw [← pow_add]
      congr 1
      omega
    have hdiv : (r + b * 2 ^ i) / 2 ^ j = b / 2 ^ (j - i) := by
      rw [hsplit, ← Nat.div_div_eq_div_mul,
        Nat.add_mul_div_right _ _ (by positivity : (0:Nat) < 2 ^ i),
        Nat.div_eq_of_lt hr, Nat.zero_add]
    rw [hdiv]

/-- ORing a value shifted up by `i` into an accumulator that fits in `i`
bits is plain addition: the two summands occupy disjoint bit ranges. -/
theorem or_shiftLeft_eq_add {r b i : Nat} (hr : r < 2 ^ i) :
    r ||| (b <<< i) = r + b * 2 ^ i := by
  apply Nat.eq_of_testBit_eq
  intro j
  rw [Nat.testBit_or, Nat.shiftLeft_eq, testBit_add_mul_two_pow b i hr j]
  rcases lt_or_ge j i with hj | hj
  · rw [if_pos hj]
    have hb : (b * 2 ^ i).testBit j = false := by
      rw [← Nat.shiftLeft_eq, Nat.testBit_shiftLeft]
      simp [show ¬ j ≥ i by omega]
    rw [hb, Bool.or_false]
  · rw [if_neg (by omega)]
    have hr0 : r.testBit j = false :=
      Nat.testBit_eq_false_of_lt
        (lt_of_lt_of_le hr (Nat.pow_le_pow_right (by norm_num) hj))
    rw [hr0, Bool.false_or, ← Nat.shiftLeft_eq, Nat.testBit_shiftLeft]
    simp [hj]

/-- Every bit the whitening scan emits is 0 or 1. -/
theorem whiten_word_bits_le (w : Nat) : ∀ b ∈ whiten_word w, b ≤ 1 := by
  intro b hb
  rw [whiten_word_eq_spec] at hb
  unfold spec_whiten_scan at hb
  simp only [List.mem_flatMap, List.mem_range] at hb
  obtain ⟨k, -, hb⟩ := hb
  unfold spec_pair_bits at hb
  split at hb
  · simp at hb
    omega
  · split at hb
    · simp at hb
      omega
    · simp at hb

/-- Refilling preserves buffer well-formedness. -/
theorem fill_buffer_bits_le :
    ∀ fuel s s', BitsInv s → fill_buffer fuel s = some s' → BitsInv s' := by
  intro fuel
  induction fuel with
  | zero =>
    intro s s' hs h
    unfold fill_buffer at h
    split at h
    · exact Option.noConfusion h
    · cases h
      exact hs
  | succ f ih =>
    intro s s' hs h
    unfold fill_buffer at h
    split at h
    · refine ih _ _ ?_ h
      intro b hb
      rcases List.mem_append.mp hb with hb | hb
      · exact hs b hb
      · exact whiten_word_bits_le _ b hb
    · cases h
      exact hs

/-- A produced bit is 0 or 1, and the remaining buffer stays well-formed. -/
theorem generate_raw_bit_bits_le {fuel : Nat} {s : XorshiftRNG} {p : Nat × XorshiftRNG}
    (hs : BitsInv s) (h : generate_raw_bit fuel s = some p) :
    p.1 ≤ 1 ∧ BitsInv p.2 := by
  unfold generate_raw_bit at h
  rcases hfb : (if s.bit_buffer.length = 0 then fill_buffer fuel s else some s) with _ | s₁
  · rw [hfb] at h
    exact Option.noConfusion h
  · rw [hfb] at h
    have hs₁ : BitsInv s₁ := by
      by_cases hlen : s.bit_buffer.length = 0
      · rw [if_pos hlen] at hfb
        exact fill_buffer_bits_le fuel s s₁ hs hfb
      · rw [if_neg hlen] at hfb
        cases hfb
        exact hs
    have h2 : (match s₁.bit_buffer with
        | [] => none
        | b :: rest => some (b, { s₁ with bit_buffer := rest })) = some p := h
    rcases hbuf : s₁.bit_buffer with _ | ⟨b, rest⟩
    · rw [hbuf] at h2
      exact Option.noConfusion h2
    · rw [hbuf] at h2
      have h' : some (b, { s₁ with bit_buffer := rest }) = some p := h2
      injection h' with hpq
      subst hpq
      refine ⟨hs₁ b (by rw [hbuf]; exact List.mem_cons_self b rest), ?_⟩
      intro x hx
      exact hs₁ x (by rw [hbuf]; exact List.mem_cons_of_mem b hx)

/-- `get_random_bits` returns exactly `n` single-bit values and keeps the
buffer well-formed. -/
theorem get_random_bits_spec (fuel : Nat) :
    ∀ n s q, BitsInv s → get_random_bits fuel n s = some q →
      (∀ b ∈ q.1, b ≤ 1) ∧ q.1.length = n ∧ BitsInv q.2 := by
  intro n
  induction n with
  | zero =>
    intro s q hs h
    unfold get_random_bits at h
    injection h with hq
    subst hq
    exact ⟨by simp, rfl, hs⟩
  | succ n ih =>
    intro s q hs h
    unfold get_random_bits at h
    rcases hg : generate_raw_bit fuel s with _ | p
    · rw [hg] at h
      exact Option.noConfusion h
    · rw [hg] at h
      obtain ⟨hb, hp⟩ := generate_raw_bit_bits_le hs hg
      have h2 : (match get_random_bits fuel n p.2 with
          | none => none
          | some r => some (p.1 :: r.1, r.2)) = some q := h
      rcases hq : get_random_bits fuel n p.2 with _ | q'
      · rw [hq] at h2
        exact Option.noConfusion h2
      · rw [hq] at h2
        obtain ⟨hb', hlen, hq2⟩ := ih p.2 q' hp hq
        have h' : some (p.1 :: q'.1, q'.2) = some q := h2
        injection h' with h''
        subst h''
        refine ⟨?_, by simp [hlen], hq2⟩
        intro b hbmem
        rcases List.mem_cons.mp hbmem with rfl | hbm
        · exact hb
        · exact hb' b hbm

/-- A list of single bits packs below `2 ^ length`. -/
theorem pack_lsb_first_lt :
    ∀ bs : List Nat, (∀ b ∈ bs, b ≤ 1) → pack_lsb_first bs < 2 ^ bs.length := by
  intro bs
  induction bs with
  | nil =>
    intro _
    simp [pack_lsb_first]
  | cons b rest ih =>
    intro hb
    have h1 : b ≤ 1 := hb b (List.mem_cons_self b rest)
    have h2 : pack_lsb_first rest < 2 ^ rest.length :=
      ih fun x hx => hb x (List.mem_cons_of_mem b hx)
    simp only [pack_lsb_first, List.length_cons, pow_succ]
    omega

/-- The packing loop with accumulator `result` and position `i` computes
`result` plus the LSB-first pack of the bits it draws, shifted up by `i`. -/
theorem apply_whitening_aux_eq_pack (fuel : Nat) :
    ∀ n i result s, BitsInv s → result < 2 ^ i →
      apply_whitening_aux fuel n i result s =
        (get_random_bits fuel n s).map fun q => (result + pack_lsb_first q.1 * 2 ^ i, q.2) := by
  intro n
  induction n with
  | zero =>
    intro i result s _ _
    simp [apply_whitening_aux, get_random_bits, pack_lsb_first]
  | succ n ih =>
    intro i result s hs hr
    rcases hg : generate_raw_bit fuel s with _ | p
    · simp [apply_whitening_aux, get_random_bits, hg]
    · obtain ⟨hb, hp⟩ := generate_raw_bit_bits_le hs hg
      have hstep : result ||| (p.1 <<< i) = result + p.1 * 2 ^ i := or_shiftLeft_eq_add hr
      have hlt : result ||| (p.1 <<< i) < 2 ^ (i + 1) := by
        rw [hstep, pow_succ]
        have h3 := Nat.mul_le_mul_right (2 ^ i) hb
        omega
      simp only [apply_whitening_aux, get_random_bits, hg]
      rw [ih (i + 1) (result ||| (p.1 <<< i)) p.2 hp hlt]
      rcases hq : get_random_bits fuel n p.2 with _ | q
      · rfl
      · show some ((result ||| (p.1 <<< i)) + pack_lsb_first q.1 * 2 ^ (i + 1), q.2) =
          some (result + pack_lsb_first (p.1 :: q.1) * 2 ^ i, q.2)
        have hpack : pack_lsb_first (p.1 :: q.1) = p.1 + 2 * pack_lsb_first q.1 := rfl
        rw [hstep, hpack, pow_succ,
          show result + p.1 * 2 ^ i + pack_lsb_first q.1 * (2 ^ i * 2) =
            result + (p.1 + 2 * pack_lsb_first q.1) * 2 ^ i by ring]

/-- C5: `apply_whitening num_bits` returns the bits it draws packed
least-significant-bit-first — the first drawn bit at position 0, the next
at position 1, and so on — so bits `1, 0, 1` pack to 5; the result always
lies in `[0, 2 ^ num_bits)`, and `num_bits = 0` yields 0 and consumes
nothing. -/
theorem c5_pack_bits_lsb_first (fuel n : Nat) (s : XorshiftRNG) (h : BitsInv s) :
    apply_whitening fuel 0 s = some (0, s) ∧
    apply_whitening fuel n s =
      (get_random_bits fuel n s).map (fun q => (pack_lsb_first q.1, q.2)) ∧
    pack_lsb_first [1, 0, 1] = 5 ∧
    (∀ v s', apply_whitening fuel n s = some (v, s') → v < 2 ^ n) := by
  have key : apply_whitening fuel n s =
      (get_random_bits fuel n s).map fun q => (pack_lsb_first q.1, q.2) := by
    unfold apply_whitening
    rw [apply_whitening_aux_eq_pack fuel n 0 0 s h (by norm_num)]
    cases hq : get_random_bits fuel n s with
    | none => rfl
    | some q =>
      show some (0 + pack_lsb_first q.1 * 2 ^ 0, q.2) = some (pack_lsb_first q.1, q.2)
      simp
  refine ⟨rfl, key, rfl, ?_⟩
  intro v s' hv
  rw [key] at hv
  cases hq : get_random_bits fuel n s with
  | none =>
    rw [hq] at hv
    exact Option.noConfusion hv
  | some q =>
    rw [hq] at hv
    have hv' : some (pack_lsb_first q.1, q.2) = some (v, s') := hv
    injection hv' with hv''
    injection hv'' with h1 h2
    subst h1
    obtain ⟨hbits, hlen, -⟩ := get_random_bits_spec fuel n s q h hq
    have := pack_lsb_first_lt q.1 hbits
    rwa [hlen] at this

/-- C5 witness: the fresh generator's buffer is trivially well-formed, and
bits drawn in order 1, 0, 1 pack to 5. -/
theorem c5_witness :
    BitsInv (XorshiftRNG.init 42) ∧ pack_lsb_first [1, 0, 1] = 5 :=
  ⟨by intro b hb; exact absurd hb (List.not_mem_nil b),
    (c5_pack_bits_lsb_first 0 0 (XorshiftRNG.init 42)
      (by intro b hb; exact absurd hb (List.not_mem_nil b))).2.2.1⟩

end RNG

namespace RNG

/-- A 64-bit word equal to its own left `k`-shift truncated to 64 bits is
zero: the congruence `x * 2^k ≡ x (mod 2^64)` forces `2^64 ∣ x` because
`2^k - 1` is odd. -/
theorem eq_zero_of_shiftLeft_mod_fixed {x k : Nat} (hk : k ≠ 0) (hx : x < 2 ^ 64)
    (h : x = (x <<< k) % 2 ^ 64) : x = 0 := by
  rw [Nat.shiftLeft_eq] at h
  have hle : x ≤ x * 2 ^ k := Nat.le_mul_of_pos_right x (by positivity)
  have hmod : x ≡ x * 2 ^ k [MOD 2 ^ 64] := by
    unfold Nat.ModEq
    rw [Nat.mod_eq_of_lt hx]
    exact h
  have hdvd : 2 ^ 64 ∣ x * 2 ^ k - x := (Nat.modEq_iff_dvd' hle).mp hmod
  have heq : x * 2 ^ k - x = x * (2 ^ k - 1) := by
    rw [Nat.mul_sub x (2 ^ k) 1, Nat.mul_one]
  have hodd : Odd (2 ^ k - 1) := by
    have heven : Even ((2:Nat) ^ k) := (Nat.even_pow).mpr ⟨even_two, hk⟩
    exact Nat.Even.sub_odd Nat.one_le_two_pow heven odd_one
  have hcop : Nat.Coprime (2 ^ 64) (2 ^ k - 1) :=
    Nat.Coprime.pow_left 64 (Nat.coprime_two_left.mpr hodd)
  exact Nat.eq_zero_of_dvd_of_lt (hcop.dvd_of_dvd_mul_right (heq ▸ hdvd)) hx

/-- The xorshift transformation keeps a 64-bit state non-zero and 64-bit:
zero is its unique fixed point and each of the three XOR stages is
injective on 64-bit words. -/
theorem xorshift64_step_NZ {x : Nat} (hx : x < 2 ^ 64) (h0 : x ≠ 0) :
    xorshift64_step x ≠ 0 ∧ xorshift64_step x < 2 ^ 64 := by
  unfold xorshift64_step M64
  dsimp only
  have hm : (0:Nat) < 2 ^ 64 := by positivity
  set x1 := x ^^^ (x <<< 12) % 2 ^ 64 with hx1
  have b1 : x1 < 2 ^ 64 := Nat.xor_lt_two_pow hx (Nat.mod_lt _ hm)
  have n1 : x1 ≠ 0 := by
    intro hz
    exact h0 (eq_zero_of_shiftLeft_mod_fixed (by norm_num) hx (Nat.xor_eq_zero.mp hz))
  set x2 := x1 ^^^ x1 >>> 25 with hx2
  have b2r : x1 >>> 25 ≤ x1 := by
    rw [Nat.shiftRight_eq_div_pow]
    exact Nat.div_le_self _ _
  have b2 : x2 < 2 ^ 64 := Nat.xor_lt_two_pow b1 (lt_of_le_of_lt b2r b1)
  have n2 : x2 ≠ 0 := by
    intro hz
    have hfix : x1 = x1 >>> 25 := Nat.xor_eq_zero.mp hz
    have hlt : x1 >>> 25 < x1 := by
      rw [Nat.shiftRight_eq_div_pow]
      exact Nat.div_lt_self (Nat.pos_of_ne_zero n1) (by norm_num)
    omega
  refine ⟨?_, Nat.xor_lt_two_pow b2 (Nat.mod_lt _ hm)⟩
  intro hz
  exact n2 (eq_zero_of_shiftLeft_mod_fixed (by norm_num) b2 (Nat.xor_eq_zero.mp hz))

/-- Construction establishes the state invariant for every seed. -/
theorem nz_init (seed : Int) : NZ (XorshiftRNG.init seed) := by
  have h2 : (0:Int) < 2 ^ 64 := by positivity
  have h3 : seed % 2 ^ 64 < 2 ^ 64 := Int.emod_lt_of_pos seed h2
  have h4 : 0 ≤ seed % 2 ^ 64 := Int.emod_nonneg seed (by omega)
  unfold NZ XorshiftRNG.init
  dsimp only
  split_ifs with h
  · exact ⟨one_ne_zero, by norm_num⟩
  · exact ⟨h, by omega⟩

/-- Raw-word production preserves the state invariant. -/
theorem nz_raw {s : XorshiftRNG} (h : NZ s) : NZ (xorshift64_raw s).2 := by
  obtain ⟨h0, hlt⟩ := h
  obtain ⟨hn, hb⟩ := xorshift64_step_NZ hlt h0
  exact ⟨hn, hb⟩

/-- Refilling preserves the state invariant. -/
theorem nz_fill_buffer :
    ∀ fuel s s', NZ s → fill_buffer fuel s = some s' → NZ s' := by
  intro fuel
  induction fuel with
  | zero =>
    intro s s' hs h
    unfold fill_buffer at h
    split at h
    · exact Option.noConfusion h
    · cases h
      exact hs
  | succ f ih =>
    intro s s' hs h
    unfold fill_buffer at h
    split at h
    · refine ih _ _ ?_ h
      exact nz_raw hs
    · cases h
      exact hs

/-- Single-bit production preserves the state invariant. -/
theorem nz_generate_raw_bit {fuel : Nat} {s : XorshiftRNG} {p : Nat × XorshiftRNG}
    (hs : NZ s) (h : generate_raw_bit fuel s = some p) : NZ p.2 := by
  unfold generate_raw_bit at h
  rcases hfb : (if s.bit_buffer.length = 0 then fill_buffer fuel s else some s) with _ | s₁
  · rw [hfb] at h
    exact Option.noConfusion h
  · rw [hfb] at h
    have hs₁ : NZ s₁ := by
      by_cases hlen : s.bit_buffer.length = 0
      · rw [if_pos hlen] at hfb
        exact nz_fill_buffer fuel s s₁ hs hfb
      · rw [if_neg hlen] at hfb
        cases hfb
        exact hs
    have h2 : (match s₁.bit_buffer with
        | [] => none
        | b :: rest => some (b, { s₁ with bit_buffer := rest })) = some p := h
    rcases hbuf : s₁.bit_buffer with _ | ⟨b, rest⟩
    · rw [hbuf] at h2
      exact Option.noConfusion h2
    · rw [hbuf] at h2
      have h' : some (b, { s₁ with bit_buffer := rest }) = some p := h2
      injection h' with hpq
      subst hpq
      exact hs₁

/-- The packing loop preserves the state invariant. -/
theorem nz_apply_whitening_aux (fuel : Nat) :
    ∀ n i result s p, NZ s → apply_whitening_aux fuel n i result s = some p → NZ p.2 := by
  intro n
  induction n with
  | zero =>
    intro i result s p hs h
    unfold apply_whitening_aux at h
    injection h with hq
    subst hq
    exact hs
  | succ n ih =>
    intro i result s p hs h
    unfold apply_whitening_aux at h
    rcases hg : generate_raw_bit fuel s with _ | r
    · rw [hg] at h
      exact Option.noConfusion h
    · rw [hg] at h
      have h2 : apply_whitening_aux fuel n (i + 1) (result ||| (r.1 <<< i)) r.2 = some p := h
      exact ih (i + 1) (result ||| (r.1 <<< i)) r.2 p (nz_generate_raw_bit hs hg) h2

/-- The rejection loop preserves the state invariant. -/
theorem nz_reject_loop (fuel : Nat) :
    ∀ tries nbits m s p, NZ s → reject_loop fuel tries nbits m s = some p → NZ p.2 := by
  intro tries
  induction tries with
  | zero =>
    intro nbits m s p hs h
    simp [reject_loop] at h
  | succ t ih =>
    intro nbits m s p hs h
    unfold reject_loop at h
    rcases hw : apply_whitening fuel nbits s with _ | r
    · rw [hw] at h
      exact Option.noConfusion h
    · rw [hw] at h
      have hr : NZ r.2 := nz_apply_whitening_aux fuel nbits 0 0 s r hs hw
      have h2 : (if (r.1 : Int) < m then some ((r.1 : Int), r.2)
          else reject_loop fuel t nbits m r.2) = some p := h
      by_cases hc : (r.1 : Int) < m
      · rw [if_pos hc] at h2
        injection h2 with hq
        subst hq
        exact hr
      · rw [if_neg hc] at h2
        exact ih nbits m r.2 p hr h2

/-- Bounded sampling preserves the state invariant. -/
theorem nz_get_random_number {fuel tries : Nat} {m : Int} {s : XorshiftRNG}
    {p : Int × XorshiftRNG} (hs : NZ s) (h : get_random_number fuel tries m s = some p) :
    NZ p.2 := by
  unfold get_random_number at h
  split at h
  · injection h with hq
    subst hq
    exact hs
  · exact nz_reject_loop fuel tries (bit_length m) m s p hs h

/-- Multi-bit generation preserves the state invariant. -/
theorem nz_get_random_bits (fuel : Nat) :
    ∀ n s q, NZ s → get_random_bits fuel n s = some q → NZ q.2 := by
  intro n
  induction n with
  | zero =>
    intro s q hs h
    unfold get_random_bits at h
    injection h with hq
    subst hq
    exact hs
  | succ n ih =>
    intro s q hs h
    unfold get_random_bits at h
    rcases hg : generate_raw_bit fuel s with _ | r
    · rw [hg] at h
      exact Option.noConfusion h
    · rw [hg] at h
      have h2 : (match get_random_bits fuel n r.2 with
          | none => none
          | some t => some (r.1 :: t.1, t.2)) = some q := h
      rcases hq : get_random_bits fuel n r.2 with _ | t
      · rw [hq] at h2
        exact Option.noConfusion h2
      · rw [hq] at h2
        have h3 : some (r.1 :: t.1, t.2) = some q := h2
        injection h3 with h4
        subst h4
        exact ih r.2 t (nz_generate_raw_bit hs hg) hq

/-- C4: the state is non-zero (and 64-bit) immediately after construction
with any seed, and raw word generation, single-bit generation, multi-bit
generation, packing and bounded sampling all preserve it: a generator
never reaches `state = 0`. -/
theorem c4_state_never_zero :
    (∀ seed : Int, NZ (XorshiftRNG.init seed)) ∧
    (∀ s : XorshiftRNG, NZ s → NZ (xorshift64_raw s).2) ∧
    (∀ fuel : Nat, ∀ s : XorshiftRNG, ∀ p : Nat × XorshiftRNG,
      NZ s → generate_raw_bit fuel s = some p → NZ p.2) ∧
    (∀ fuel n : Nat, ∀ s : XorshiftRNG, ∀ q : List Nat × XorshiftRNG,
      NZ s → get_random_bits fuel n s = some q → NZ q.2) ∧
    (∀ fuel n : Nat, ∀ s : XorshiftRNG, ∀ p : Nat × XorshiftRNG,
      NZ s → apply_whitening fuel n s = some p → NZ p.2) ∧
    (∀ fuel tries : Nat, ∀ m : Int, ∀ s : XorshiftRNG, ∀ p : Int × XorshiftRNG,
      NZ s → get_random_number fuel tries m s = some p → NZ p.2) :=
  ⟨nz_init,
    fun _ => nz_raw,
    fun _ _ _ hs h => nz_generate_raw_bit hs h,
    fun fuel n s q hs h => nz_get_random_bits fuel n s q hs h,
    fun fuel n s p hs h => nz_apply_whitening_aux fuel n 0 0 s p hs h,
    fun _ _ _ _ _ hs h => nz_get_random_number hs h⟩

/-- C4 witness: the invariant holds for the coerced zero seed and is kept
by one raw-word step. -/
theorem c4_witness :
    NZ (XorshiftRNG.init 0) ∧ NZ (xorshift64_raw (XorshiftRNG.init 0)).2 :=
  ⟨c4_state_never_zero.1 0,
    c4_state_never_zero.2.1 (XorshiftRNG.init 0) ⟨by decide, by decide⟩⟩

end RNG
